import Mathlib

/-!
Verification of the chat-translator pipeline (`src/main.py`) against its
natural-language specification.

The Python source is shallowly embedded below:

* `pyStrip` models Python's `str.strip()` (drop leading/trailing whitespace);
* `SimpleLRU` models the `SimpleLRU` class backed by an `OrderedDict`: the
  association list is kept in recency order, least-recently-used first;
* `translate` models `Translator.translate`, with the external OpenAI call
  abstracted as an oracle of type `Except String String` (error message or
  returned message content);
* `fileEmits`, `ocrRun`, `clipRun` model the three adapter loops
  (`FileAdapter.run`, `OCRAdapter.run`, `ClipboardAdapter.run`) as pure
  functions from the polled inputs to the sequence of items they enqueue;
* `workerStep` / `renderLine` model `TranslatorApp._worker` and
  `TranslatorApp._process_queues`;
* `appStart` / `appStop` model `TranslatorApp.start` / `TranslatorApp.stop`
  acting on the observable session state.
-/

/-! ## Python `str.strip()` -/

/-- Drop trailing whitespace from a list of characters, keeping everything
before it.  Used to model the right half of Python's `str.strip()`. -/
def dropTrailingWs : List Char → List Char
  | [] => []
  | c :: rest =>
    let r := dropTrailingWs rest
    if r.isEmpty && c.isWhitespace then [] else c :: r

/-- Model of Python's `str.strip()`: remove leading and trailing whitespace. -/
def pyStrip (s : String) : String :=
  String.mk (dropTrailingWs (s.data.dropWhile Char.isWhitespace))

theorem dropTrailingWs_idem (l : List Char) :
    dropTrailingWs (dropTrailingWs l) = dropTrailingWs l := by
  induction l with
  | nil => rfl
  | cons c rest ih =>
    by_cases h : (dropTrailingWs rest).isEmpty && c.isWhitespace
    · simp [dropTrailingWs, h]
    · simp only [dropTrailingWs, h, if_false]
      simp only [dropTrailingWs, ih, h, if_false]

theorem dropWhile_cons_head {p : Char → Bool} {l : List Char} {c : Char}
    {r : List Char} (h : l.dropWhile p = c :: r) : p c = false := by
  induction l with
  | nil => simp at h
  | cons a t ih =>
    by_cases ha : p a
    · rw [List.dropWhile_cons_of_pos ha] at h
      exact ih h
    · rw [List.dropWhile_cons_of_neg ha] at h
      cases h
      simpa using ha

theorem dropTrailingWs_cons_shape (c : Char) (rest : List Char) :
    dropTrailingWs (c :: rest) = [] ∨
      ∃ r, dropTrailingWs (c :: rest) = c :: r := by
  by_cases h : (dropTrailingWs rest).isEmpty && c.isWhitespace
  · left; simp [dropTrailingWs, h]
  · right; exact ⟨dropTrailingWs rest, by simp [dropTrailingWs, h]⟩

/-- Python `str.strip()` is idempotent. -/
theorem pyStrip_idem (s : String) : pyStrip (pyStrip s) = pyStrip s := by
  unfold pyStrip
  cases hA : (s.data.dropWhile Char.isWhitespace) with
  | nil => simp [dropTrailingWs]
  | cons a t =>
    have hws : a.isWhitespace = false := dropWhile_cons_head hA
    rcases dropTrailingWs_cons_shape a t with hB | ⟨r, hB⟩
    · rw [hB]
      simp [dropTrailingWs]
    · rw [hB]
      have hdw : List.dropWhile Char.isWhitespace (a :: r) = a :: r :=
        List.dropWhile_cons_of_neg (by simp [hws])
      have h2 : dropTrailingWs (a :: r) = a :: r := by
        have h3 := dropTrailingWs_idem (a :: t)
        rwa [hB] at h3
      simp only [hdw, h2]

/-! ## `SimpleLRU` (src/main.py lines 19-32)

The `OrderedDict` is embedded as an association list in recency order:
the head is the least-recently-used entry (`popitem(last=False)` removes
it) and the last element is the most-recently-used one (`move_to_end`
appends there). -/

/-- State of a `SimpleLRU` instance. -/
structure SimpleLRU where
  capacity : Nat
  cache : List (String × String)
  deriving DecidableEq

/-- Lookup in the ordered dictionary (`key in self.cache` / `self.cache[key]`). -/
def lruFind (k : String) : List (String × String) → Option String
  | [] => none
  | p :: rest => if p.1 = k then some p.2 else lruFind k rest

/-- Removal of a key from the ordered dictionary, used to model
`move_to_end` (remove, then re-append at the most-recent end). -/
def removeKey (k : String) : List (String × String) → List (String × String)
  | [] => []
  | p :: rest => if p.1 = k then removeKey k rest else p :: removeKey k rest

/-- Model of `SimpleLRU.__init__` with the given capacity and an empty dict. -/
def SimpleLRU.empty (cap : Nat) : SimpleLRU := ⟨cap, []⟩

/-- Model of `SimpleLRU.get`: on a hit, `move_to_end(key)` and return the value;
on a miss return `None`.  The returned pair is (result, updated state). -/
def SimpleLRU.get (m : SimpleLRU) (k : String) : Option String × SimpleLRU :=
  match lruFind k m.cache with
  | some v => (some v, ⟨m.capacity, removeKey k m.cache ++ [(k, v)]⟩)
  | none => (none, m)

/-- Model of `SimpleLRU.put`: `self.cache[key] = value`, `move_to_end(key)`, and if
`len(self.cache) > self.capacity`, `popitem(last=False)` (drop the head,
the least-recently-used entry). -/
def SimpleLRU.put (m : SimpleLRU) (k v : String) : SimpleLRU :=
  if m.capacity < (removeKey k m.cache ++ [(k, v)]).length
  then ⟨m.capacity, (removeKey k m.cache ++ [(k, v)]).drop 1⟩
  else ⟨m.capacity, removeKey k m.cache ++ [(k, v)]⟩

/-- A sequence of `put` operations, oldest first. -/
def SimpleLRU.insertAll (m : SimpleLRU) (ps : List (String × String)) : SimpleLRU :=
  ps.foldl (fun acc p => acc.put p.1 p.2) m

theorem SimpleLRU.put_capacity (m : SimpleLRU) (k v : String) :
    (m.put k v).capacity = m.capacity := by
  unfold SimpleLRU.put
  split <;> rfl

theorem SimpleLRU.insertAll_capacity (ps : List (String × String)) :
    ∀ m : SimpleLRU, (m.insertAll ps).capacity = m.capacity := by
  induction ps with
  | nil => intro m; rfl
  | cons p ps ih =>
    intro m
    show ((m.put p.1 p.2).insertAll ps).capacity = m.capacity
    rw [ih, SimpleLRU.put_capacity]

theorem removeKey_length_le (k : String) (l : List (String × String)) :
    (removeKey k l).length ≤ l.length := by
  induction l with
  | nil => simp [removeKey]
  | cons p rest ih =>
    by_cases h : p.1 = k <;> simp [removeKey, h] <;> omega

/-- One `put` keeps the size within capacity (if it was within before). -/
theorem SimpleLRU.put_length_le (m : SimpleLRU) (k v : String)
    (h : m.cache.length ≤ m.capacity) :
    (m.put k v).cache.length ≤ m.capacity := by
  unfold SimpleLRU.put
  have hr := removeKey_length_le k m.cache
  split
  · next hc =>
    simp only [List.length_drop, List.length_append, List.length_cons,
      List.length_nil] at hc ⊢
    omega
  · next hc =>
    simp only [not_lt, List.length_append, List.length_cons,
      List.length_nil] at hc ⊢
    omega

theorem SimpleLRU.insertAll_length_le (ps : List (String × String)) :
    ∀ m : SimpleLRU, m.cache.length ≤ m.capacity →
      (m.insertAll ps).cache.length ≤ m.capacity := by
  induction ps with
  | nil => intro m h; exact h
  | cons p ps ih =>
    intro m h
    show ((m.put p.1 p.2).insertAll ps).cache.length ≤ m.capacity
    have h1 := m.put_length_le p.1 p.2 h
    have := ih (m.put p.1 p.2) (by rw [SimpleLRU.put_capacity]; exact h1)
    rwa [SimpleLRU.put_capacity] at this

theorem removeKey_of_not_mem {k : String} {l : List (String × String)}
    (h : k ∉ l.map Prod.fst) : removeKey k l = l := by
  induction l with
  | nil => rfl
  | cons p rest ih =>
    simp only [List.map_cons, List.mem_cons, not_or] at h
    rw [removeKey, if_neg (fun he => h.1 he.symm), ih h.2]

theorem removeKey_key_ne (k : String) (l : List (String × String)) :
    ∀ p ∈ removeKey k l, p.1 ≠ k := by
  induction l with
  | nil => intro p hp; simp [removeKey] at hp
  | cons q rest ih =>
    intro p hp
    rw [removeKey] at hp
    by_cases hq : q.1 = k
    · rw [if_pos hq] at hp
      exact ih p hp
    · rw [if_neg hq] at hp
      rcases List.mem_cons.mp hp with he | hm
      · rw [he]; exact hq
      · exact ih p hm

theorem lruFind_append_of_ne {k : String} {l₂ : List (String × String)}
    (l₁ : List (String × String)) (h : ∀ p ∈ l₁, p.1 ≠ k) :
    lruFind k (l₁ ++ l₂) = lruFind k l₂ := by
  induction l₁ with
  | nil => rfl
  | cons q rest ih =>
    rw [List.cons_append, lruFind, if_neg (h q (by simp))]
    exact ih (fun p hp => h p (by simp [hp]))

theorem lruFind_eq_none {k : String} {l : List (String × String)}
    (h : k ∉ l.map Prod.fst) : lruFind k l = none := by
  induction l with
  | nil => rfl
  | cons q rest ih =>
    simp only [List.map_cons, List.mem_cons, not_or] at h
    rw [lruFind, if_neg (fun he => h.1 he.symm)]
    exact ih h.2

theorem lruFind_of_mem_nodup {l : List (String × String)}
    (hnd : (l.map Prod.fst).Nodup) {k v : String} (hm : (k, v) ∈ l) :
    lruFind k l = some v := by
  induction l with
  | nil => cases hm
  | cons q rest ih =>
    simp only [List.map_cons, List.nodup_cons] at hnd
    rcases List.mem_cons.mp hm with he | hmem
    · rw [← he, lruFind, if_pos rfl]
    · by_cases hq : q.1 = k
      · exfalso
        apply hnd.1
        rw [hq]
        exact List.mem_map.mpr ⟨(k, v), hmem, rfl⟩
      · rw [lruFind, if_neg hq]
        exact ih hnd.2 hmem

theorem lruFind_decomp {l : List (String × String)}
    (hnd : (l.map Prod.fst).Nodup) {k v : String}
    (hf : lruFind k l = some v) :
    ∃ l₁ l₂, l = l₁ ++ (k, v) :: l₂ ∧ removeKey k l = l₁ ++ l₂ := by
  induction l with
  | nil => simp [lruFind] at hf
  | cons q rest ih =>
    simp only [List.map_cons, List.nodup_cons] at hnd
    by_cases hq : q.1 = k
    · rw [lruFind, if_pos hq] at hf
      have hv : q.2 = v := Option.some.inj hf
      refine ⟨[], rest, ?_, ?_⟩
      · rw [List.nil_append]
        have : q = (k, v) := by
          obtain ⟨qk, qv⟩ := q
          simp at hq hv
          rw [hq, hv]
        rw [this]
      · rw [removeKey, if_pos hq, List.nil_append]
        apply removeKey_of_not_mem
        rw [← hq]
        exact hnd.1
    · rw [lruFind, if_neg hq] at hf
      obtain ⟨l₁, l₂, he, hr⟩ := ih hnd.2 hf
      exact ⟨q :: l₁, l₂, by rw [he, List.cons_append],
        by rw [removeKey, if_neg hq, hr, List.cons_append]⟩

/-- A fresh insertion into a full cache (at capacity at least 1) evicts
exactly the least-recently-used (front) entry. -/
theorem SimpleLRU.put_full_fresh (m : SimpleLRU) (k v : String)
    (hfull : m.cache.length = m.capacity) (hcap : 1 ≤ m.capacity)
    (hfresh : k ∉ m.cache.map Prod.fst) :
    (m.put k v).cache = m.cache.drop 1 ++ [(k, v)] := by
  unfold SimpleLRU.put
  rw [removeKey_of_not_mem hfresh, if_pos (by simp [hfull])]
  exact List.drop_append_of_le_length (by omega)

/-- Inserting a sequence of pairwise-fresh keys keeps the most recent
`capacity` entries, in order: the resulting dict is the suffix of
`m.cache ++ ps` that fits in the capacity. -/
theorem SimpleLRU.insertAll_fresh (ps : List (String × String)) :
    ∀ m : SimpleLRU, ((m.cache ++ ps).map Prod.fst).Nodup →
      m.cache.length ≤ m.capacity →
      (m.insertAll ps).cache =
        (m.cache ++ ps).drop ((m.cache ++ ps).length - m.capacity) := by
  induction ps with
  | nil =>
    intro m _ hlen
    have h0 : m.cache.length - m.capacity = 0 := by omega
    simp [SimpleLRU.insertAll, h0]
  | cons p ps ih =>
    obtain ⟨k, v⟩ := p
    intro m hnd hlen
    have hnd' : (m.cache.map Prod.fst ++ k :: ps.map Prod.fst).Nodup := by
      simpa using hnd
    have hfresh : k ∉ m.cache.map Prod.fst := by
      intro hmem
      exact (List.nodup_append.mp hnd').2.2 hmem (by simp)
    have hrk : removeKey k m.cache = m.cache := removeKey_of_not_mem hfresh
    show ((m.put k v).insertAll ps).cache = _
    have hcap : (m.put k v).capacity = m.capacity := m.put_capacity k v
    by_cases hc : m.cache.length < m.capacity
    · have hput : (m.put k v).cache = m.cache ++ [(k, v)] := by
        unfold SimpleLRU.put
        rw [hrk, if_neg (by simp; omega)]
      have happ : (m.put k v).cache ++ ps = m.cache ++ (k, v) :: ps := by
        rw [hput]
        simp
      have hres := ih (m.put k v) (by rw [happ]; exact hnd) (by rw [hput, hcap]; simp; omega)
      rw [happ, hcap] at hres
      exact hres
    · have hcm : m.cache.length = m.capacity := by omega
      have hput : (m.put k v).cache = (m.cache ++ [(k, v)]).drop 1 := by
        unfold SimpleLRU.put
        rw [hrk, if_pos (by simp; omega)]
      have h1 : (1 : Nat) ≤ (m.cache ++ [(k, v)]).length := by simp
      have happ : (m.put k v).cache ++ ps = (m.cache ++ (k, v) :: ps).drop 1 := by
        rw [hput, ← List.drop_append_of_le_length h1]
        congr 1
        simp
      have hnd2 : (((m.put k v).cache ++ ps).map Prod.fst).Nodup := by
        rw [happ]
        exact hnd.sublist ((List.drop_sublist 1 _).map Prod.fst)
      have hlen2 : (m.put k v).cache.length ≤ (m.put k v).capacity := by
        rw [hput, hcap]
        simp
        omega
      have hres := ih (m.put k v) hnd2 hlen2
      rw [happ, hcap] at hres
      rw [hres, List.drop_drop]
      congr 1
      simp only [List.length_drop, List.length_append, List.length_cons]
      omega

/-- Claim C3: for every sequence of `put` operations on a cache of capacity
`C`, the size never exceeds `C`; a fresh insertion into a full cache evicts
exactly the least-recently-used entry; and inserting `C + 1` distinct keys
in order into an empty cache evicts exactly the first-inserted key, leaving
every other key retrievable. -/
theorem c3_lru_bound (C : Nat) (ps : List (String × String)) (_hC : 1 ≤ C)
    (hnd : (ps.map Prod.fst).Nodup) (hlen : ps.length = C + 1) :
    (∀ qs : List (String × String),
        ((SimpleLRU.empty C).insertAll qs).cache.length ≤ C)
  ∧ (∀ (m : SimpleLRU) (k v : String), m.cache.length = m.capacity →
        1 ≤ m.capacity → k ∉ m.cache.map Prod.fst →
        (m.put k v).cache = m.cache.drop 1 ++ [(k, v)])
  ∧ ((SimpleLRU.empty C).insertAll ps).cache = ps.drop 1
  ∧ (∀ p ∈ ps.drop 1,
        lruFind p.1 ((SimpleLRU.empty C).insertAll ps).cache = some p.2) := by
  have hmain : ((SimpleLRU.empty C).insertAll ps).cache = ps.drop 1 := by
    have h := SimpleLRU.insertAll_fresh ps (SimpleLRU.empty C)
      (by simpa [SimpleLRU.empty] using hnd) (by simp [SimpleLRU.empty])
    simpa [SimpleLRU.empty, hlen] using h
  refine ⟨?_, ?_, hmain, ?_⟩
  · intro qs
    exact SimpleLRU.insertAll_length_le qs (SimpleLRU.empty C) (by simp [SimpleLRU.empty])
  · intro m k v hfull hcap hfresh
    exact m.put_full_fresh k v hfull hcap hfresh
  · intro p hp
    rw [hmain]
    have hnd2 : ((ps.drop 1).map Prod.fst).Nodup :=
      hnd.sublist ((List.drop_sublist 1 ps).map Prod.fst)
    exact lruFind_of_mem_nodup hnd2 hp

/-- Claim C3 witness: capacity 1, inserting the 2 distinct keys "a", "b"
leaves exactly the cache [("b", "y")]. -/
theorem c3_witness :
    ((SimpleLRU.empty 1).insertAll [("a", "x"), ("b", "y")]).cache = [("b", "y")] :=
  (c3_lru_bound 1 [("a", "x"), ("b", "y")] (by decide) (by decide) rfl).2.2.1

/-- Claim C4: a `get` on an existing key marks it most-recently-used:
after reading key `k` of a full cache, inserting `capacity - 1` fresh keys
evicts every key not read since `k` while `k` itself is still retrievable. -/
theorem c4_get_recency (m : SimpleLRU) (k v : String) (ps : List (String × String))
    (hnd : (m.cache.map Prod.fst ++ ps.map Prod.fst).Nodup)
    (hfull : m.cache.length = m.capacity)
    (hget : lruFind k m.cache = some v)
    (hlen : ps.length + 1 = m.capacity) :
    lruFind k (((m.get k).2.insertAll ps).cache) = some v
  ∧ ∀ k₂, k₂ ∈ m.cache.map Prod.fst → k₂ ≠ k →
      lruFind k₂ (((m.get k).2.insertAll ps).cache) = none := by
  have hndm : (m.cache.map Prod.fst).Nodup := (List.nodup_append.mp hnd).1
  obtain ⟨l₁, l₂, hdec, hrk⟩ := lruFind_decomp hndm hget
  have hm' : (m.get k).2 = ⟨m.capacity, (l₁ ++ l₂) ++ [(k, v)]⟩ := by
    unfold SimpleLRU.get
    rw [hget, hrk]
  have hclen : l₁.length + l₂.length + 1 = m.capacity := by
    have := congrArg List.length hdec
    simp at this
    omega
  have hperm : List.Perm
      (((l₁ ++ l₂).map Prod.fst) ++ k :: ps.map Prod.fst)
      (m.cache.map Prod.fst ++ ps.map Prod.fst) := by
    rw [hdec]
    simp only [List.map_append, List.map_cons, List.append_assoc, List.cons_append]
    exact List.Perm.append_left _ List.perm_middle
  have hndT : (((l₁ ++ l₂).map Prod.fst) ++ k :: ps.map Prod.fst).Nodup :=
    (hperm.nodup_iff).mpr hnd
  have hcap2 : (m.get k).2.capacity = m.capacity := by rw [hm']
  have hfresh_form : (m.get k).2.cache ++ ps = (l₁ ++ l₂) ++ (k, v) :: ps := by
    rw [hm']
    simp
  have happly := SimpleLRU.insertAll_fresh ps (m.get k).2
    (by rw [hfresh_form]; simpa using hndT)
    (by rw [hm']; simp; omega)
  have hidx : ((l₁ ++ l₂) ++ (k, v) :: ps).length - (m.get k).2.capacity
      = (l₁ ++ l₂).length := by
    rw [hcap2]
    simp
    omega
  rw [hfresh_form, hidx, List.drop_left] at happly
  constructor
  · rw [happly, lruFind, if_pos rfl]
  · intro k₂ hk₂ hne
    rw [happly]
    apply lruFind_eq_none
    simp only [List.map_cons, List.mem_cons, not_or]
    exact ⟨hne, fun hmem => (List.nodup_append.mp hnd).2.2 hk₂ hmem⟩

/-- Claim C4 witness: in a capacity-2 cache holding "a" then "b", reading
"a" and then inserting the fresh key "c" evicts "b" and keeps "a". -/
theorem c4_witness :
    lruFind "a" (((SimpleLRU.mk 2 [("a", "1"), ("b", "2")]).get "a").2.insertAll
        [("c", "3")]).cache = some "1"
  ∧ lruFind "b" (((SimpleLRU.mk 2 [("a", "1"), ("b", "2")]).get "a").2.insertAll
        [("c", "3")]).cache = none := by
  have h := c4_get_recency ⟨2, [("a", "1"), ("b", "2")]⟩ "a" "1" [("c", "3")]
    (by decide) rfl (by decide) rfl
  exact ⟨h.1, h.2 "b" (by decide) (by decide)⟩

/-! ## `Translator.translate` (src/main.py lines 95-122)

The external chat-completion request is abstracted as an oracle
`Except String String`: `Except.ok content` is a successful response body
(the code then applies `.strip()` to it), `Except.error e` is any raised
exception, which the code converts to the string
`"__ERROR__ Translator: " ++ e`.  The returned triple is
(result string, cache state after the call, whether the external call was
issued). -/

/-- The cache key `key = f"{target_language}::{text}"`. -/
def cacheKey (target_language text : String) : String :=
  target_language ++ "::" ++ text

/-- The body of the `try:` block on a cache miss: issue the external call;
on success strip and cache the translation, on exception return the
`__ERROR__` string and leave the cache untouched. -/
def serviceCall (c : SimpleLRU) (key : String) (ext : Except String String) :
    String × SimpleLRU × Bool :=
  match ext with
  | Except.ok content => (pyStrip content, c.put key (pyStrip content), true)
  | Except.error e => ("__ERROR__ Translator: " ++ e, c, true)

/-- Model of `Translator.translate(text, target_language)`: consult the cache
(`if cached:` is Python truthiness, so both a miss and a cached empty
string fall through to the external call). -/
def Translator.translate (c : SimpleLRU) (text target_language : String)
    (ext : Except String String) : String × SimpleLRU × Bool :=
  match c.get (cacheKey target_language text) with
  | (some v, c1) =>
    if v = "" then serviceCall c1 (cacheKey target_language text) ext
    else (v, c1, false)
  | (none, c1) => serviceCall c1 (cacheKey target_language text) ext

theorem lruFind_append_self {k v : String} {l : List (String × String)}
    (h : ∀ p ∈ l, p.1 ≠ k) : lruFind k (l ++ [(k, v)]) = some v := by
  rw [lruFind_append_of_ne l h, lruFind, if_pos rfl]

/-- After a `put`, the key is retrievable (capacity at least 1). -/
theorem SimpleLRU.lruFind_put_self (m : SimpleLRU) (k v : String)
    (hcap : 1 ≤ m.capacity) : lruFind k (m.put k v).cache = some v := by
  unfold SimpleLRU.put
  split
  · next hc =>
    simp only [List.length_append, List.length_cons, List.length_nil] at hc
    have h1 : (1 : Nat) ≤ (removeKey k m.cache).length := by omega
    rw [List.drop_append_of_le_length h1]
    exact lruFind_append_self
      (fun p hp => removeKey_key_ne k m.cache p (List.mem_of_mem_drop hp))
  · exact lruFind_append_self (removeKey_key_ne k m.cache)

theorem Translator.translate_miss {c : SimpleLRU} {text lang : String}
    {ext : Except String String}
    (h : lruFind (cacheKey lang text) c.cache = none) :
    Translator.translate c text lang ext = serviceCall c (cacheKey lang text) ext := by
  unfold Translator.translate SimpleLRU.get
  rw [h]

theorem Translator.translate_hit {c : SimpleLRU} {text lang v : String}
    {ext : Except String String}
    (h : lruFind (cacheKey lang text) c.cache = some v) :
    Translator.translate c text lang ext =
      if v = "" then
        serviceCall ⟨c.capacity, removeKey (cacheKey lang text) c.cache
          ++ [(cacheKey lang text, v)]⟩ (cacheKey lang text) ext
      else (v, ⟨c.capacity, removeKey (cacheKey lang text) c.cache
          ++ [(cacheKey lang text, v)]⟩, false) := by
  unfold Translator.translate SimpleLRU.get
  rw [h]

/-- Claim C2 counterexample: if the external call succeeds but its body
strips to the empty string (response `" "`), the empty string is cached,
the cached value is falsy for `if cached:`, and a second identical call
issues the external call again — two external calls for two identical
invocations. -/
theorem c2_counterexample :
    (Translator.translate (SimpleLRU.empty 1500) "hi" "Spanish"
        (Except.ok " ")).2.2 = true
  ∧ (Translator.translate
        (Translator.translate (SimpleLRU.empty 1500) "hi" "Spanish"
          (Except.ok " ")).2.1
        "hi" "Spanish" (Except.ok " ")).2.2 = true := by decide

/-- Claim C2 (amended): provided the external response strips to a
non-empty translation, two identical `translate` calls issue the external
call at most once and the second returns the same value as the first. -/
theorem c2_amended (c0 : SimpleLRU) (text lang content : String)
    (hcap : 1 ≤ c0.capacity) (ht : pyStrip content ≠ "") :
    ¬((Translator.translate c0 text lang (Except.ok content)).2.2 = true
        ∧ (Translator.translate
            (Translator.translate c0 text lang (Except.ok content)).2.1
            text lang (Except.ok content)).2.2 = true)
  ∧ (Translator.translate
        (Translator.translate c0 text lang (Except.ok content)).2.1
        text lang (Except.ok content)).1
      = (Translator.translate c0 text lang (Except.ok content)).1 := by
  rcases hfind : lruFind (cacheKey lang text) c0.cache with _ | v
  · -- first call is a miss: external call, strip, cache
    have h1 : Translator.translate c0 text lang (Except.ok content)
        = (pyStrip content, c0.put (cacheKey lang text) (pyStrip content), true) := by
      rw [Translator.translate_miss hfind]
      rfl
    have hfind2 : lruFind (cacheKey lang text)
        (c0.put (cacheKey lang text) (pyStrip content)).cache = some (pyStrip content) :=
      c0.lruFind_put_self (cacheKey lang text) (pyStrip content) hcap
    rw [h1]
    rw [Translator.translate_hit hfind2, if_neg ht]
    exact ⟨fun hc => by simp at hc, rfl⟩
  · by_cases hv : v = ""
    · -- cached empty string: falsy, so the external call happens and
      -- overwrites the entry with the non-empty stripped translation
      subst hv
      have h1 : Translator.translate c0 text lang (Except.ok content)
          = (pyStrip content,
             (⟨c0.capacity, removeKey (cacheKey lang text) c0.cache
               ++ [(cacheKey lang text, "")]⟩ : SimpleLRU).put (cacheKey lang text)
               (pyStrip content), true) := by
        rw [Translator.translate_hit hfind, if_pos rfl]
        rfl
      have hfind2 : lruFind (cacheKey lang text)
          ((⟨c0.capacity, removeKey (cacheKey lang text) c0.cache
            ++ [(cacheKey lang text, "")]⟩ : SimpleLRU).put (cacheKey lang text)
            (pyStrip content)).cache = some (pyStrip content) :=
        SimpleLRU.lruFind_put_self _ (cacheKey lang text) (pyStrip content) hcap
      rw [h1]
      rw [Translator.translate_hit hfind2, if_neg ht]
      exact ⟨fun hc => by simp at hc, rfl⟩
    · -- genuine cache hit: no external call at all, same value twice
      have h1 : Translator.translate c0 text lang (Except.ok content)
          = (v, ⟨c0.capacity, removeKey (cacheKey lang text) c0.cache
             ++ [(cacheKey lang text, v)]⟩, false) := by
        rw [Translator.translate_hit hfind, if_neg hv]
      have hfind2 : lruFind (cacheKey lang text)
          ((⟨c0.capacity, removeKey (cacheKey lang text) c0.cache
            ++ [(cacheKey lang text, v)]⟩ : SimpleLRU) : SimpleLRU).cache
          = some v :=
        lruFind_append_self (removeKey_key_ne (cacheKey lang text) c0.cache)
      rw [h1]
      rw [Translator.translate_hit hfind2, if_neg hv]
      exact ⟨fun hc => by simp at hc, rfl⟩

/-- Claim C2 witness: a successful first call for ("gg", "Spanish") with
response " hola " calls the service once and a second identical call
returns the cached "hola" without a second external call. -/
theorem c2_witness :
    ¬((Translator.translate (SimpleLRU.empty 2) "gg" "Spanish"
          (Except.ok " hola ")).2.2 = true
        ∧ (Translator.translate
            (Translator.translate (SimpleLRU.empty 2) "gg" "Spanish"
              (Except.ok " hola ")).2.1
            "gg" "Spanish" (Except.ok " hola ")).2.2 = true)
  ∧ (Translator.translate
        (Translator.translate (SimpleLRU.empty 2) "gg" "Spanish"
          (Except.ok " hola ")).2.1
        "gg" "Spanish" (Except.ok " hola ")).1
      = (Translator.translate (SimpleLRU.empty 2) "gg" "Spanish"
          (Except.ok " hola ")).1 :=
  c2_amended (SimpleLRU.empty 2) "gg" "Spanish" " hola " (by decide) (by decide)

theorem lruFind_removeKey_ne {k key : String} (hne : k ≠ key)
    (l : List (String × String)) :
    lruFind k (removeKey key l) = lruFind k l := by
  induction l with
  | nil => rfl
  | cons p rest ih =>
    by_cases hp : p.1 = key
    · rw [removeKey, if_pos hp, ih, lruFind,
        if_neg (fun h => hne (h.symm.trans hp))]
    · simp only [removeKey, if_neg hp, lruFind]
      rw [ih]

theorem lruFind_append_ne {k key v : String} (hne : k ≠ key)
    (l : List (String × String)) :
    lruFind k (l ++ [(key, v)]) = lruFind k l := by
  induction l with
  | nil =>
    simp only [List.nil_append, lruFind]
    rw [if_neg (fun h => hne h.symm)]
  | cons p rest ih =>
    simp only [List.cons_append, lruFind, List.append_eq]
    rw [ih]

/-- A cache state reachable from the empty cache through the code's own
behavior: a whitespace-only success for ("hi", "French") caches "" under
"French::hi", then a normal success for ("yo", "French") appends a second
entry after it, so the ""-entry is no longer most-recently-used. -/
def falsyCachedState : SimpleLRU :=
  (Translator.translate
    (Translator.translate (SimpleLRU.empty 1500) "hi" "French"
      (Except.ok " ")).2.1
    "yo" "French" (Except.ok "x")).2.1

/-- Claim C10 counterexample: at the reachable state where "French::hi" is
cached as the empty string, a failing call for ("hi", "French") issues the
external call AND changes the cache — `get`'s `move_to_end` runs before
the falsy `if cached:` check moves the ""-entry to the most-recent end —
so the failing `translate` does not leave the TranslationCache unchanged. -/
theorem c10_counterexample :
    (Translator.translate falsyCachedState "hi" "French"
        (Except.error "boom")).2.2 = true
  ∧ (Translator.translate falsyCachedState "hi" "French"
        (Except.error "boom")).2.1 ≠ falsyCachedState := by decide

/-- Claim C10 (amended): when the external call fails — which happens
exactly when the key is absent or cached as the falsy empty string — 
`translate` returns the error result and stores nothing: every key's
lookup result is exactly as before the call (on a true miss the state is
literally unchanged; on a cached-"" key only its recency position moves),
and a subsequent call with the same arguments issues the external call
again rather than returning a cached error. -/
theorem c10_amended (c0 : SimpleLRU) (text lang e : String)
    (ext2 : Except String String)
    (hfalsy : lruFind (cacheKey lang text) c0.cache = none
      ∨ lruFind (cacheKey lang text) c0.cache = some "") :
    (Translator.translate c0 text lang (Except.error e)).1
        = "__ERROR__ Translator: " ++ e
  ∧ (Translator.translate c0 text lang (Except.error e)).2.2 = true
  ∧ (∀ k, lruFind k (Translator.translate c0 text lang (Except.error e)).2.1.cache
        = lruFind k c0.cache)
  ∧ (Translator.translate
        (Translator.translate c0 text lang (Except.error e)).2.1
        text lang ext2).2.2 = true := by
  rcases hfalsy with hmiss | hempty
  · have h1 : Translator.translate c0 text lang (Except.error e)
        = ("__ERROR__ Translator: " ++ e, c0, true) := by
      rw [Translator.translate_miss hmiss]
      rfl
    refine ⟨by rw [h1], by rw [h1], by intro k; rw [h1], ?_⟩
    rw [h1]
    rw [Translator.translate_miss hmiss]
    cases ext2 with
    | ok content => rfl
    | error e2 => rfl
  · have h1 : Translator.translate c0 text lang (Except.error e)
        = ("__ERROR__ Translator: " ++ e,
           ⟨c0.capacity, removeKey (cacheKey lang text) c0.cache
             ++ [(cacheKey lang text, "")]⟩, true) := by
      rw [Translator.translate_hit hempty, if_pos rfl]
      rfl
    have hcontents : ∀ k, lruFind k (removeKey (cacheKey lang text) c0.cache
        ++ [(cacheKey lang text, "")]) = lruFind k c0.cache := by
      intro k
      by_cases hk : k = cacheKey lang text
      · subst hk
        rw [lruFind_append_self
          (removeKey_key_ne (cacheKey lang text) c0.cache), hempty]
      · rw [lruFind_append_ne hk, lruFind_removeKey_ne hk]
    refine ⟨by rw [h1], by rw [h1], by intro k; rw [h1]; exact hcontents k, ?_⟩
    rw [h1]
    have hfind2 : lruFind (cacheKey lang text)
        ((⟨c0.capacity, removeKey (cacheKey lang text) c0.cache
          ++ [(cacheKey lang text, "")]⟩ : SimpleLRU)).cache = some "" :=
      lruFind_append_self (removeKey_key_ne (cacheKey lang text) c0.cache)
    rw [Translator.translate_hit hfind2, if_pos rfl]
    cases ext2 with
    | ok content => rfl
    | error e2 => rfl

/-- Claim C10 witness: at the reachable cached-"" state, a failing call
for ("hi", "French") returns the error, preserves every key lookup, and a
retry (even a succeeding one) issues the external call again. -/
theorem c10_witness :
    (Translator.translate falsyCachedState "hi" "French"
        (Except.error "boom")).1 = "__ERROR__ Translator: " ++ "boom"
  ∧ (Translator.translate falsyCachedState "hi" "French"
        (Except.error "boom")).2.2 = true
  ∧ (∀ k, lruFind k (Translator.translate falsyCachedState "hi" "French"
        (Except.error "boom")).2.1.cache = lruFind k falsyCachedState.cache)
  ∧ (Translator.translate
        (Translator.translate falsyCachedState "hi" "French"
          (Except.error "boom")).2.1
        "hi" "French" (Except.ok "salut")).2.2 = true :=
  c10_amended falsyCachedState "hi" "French" "boom" (Except.ok "salut")
    (Or.inr (by decide))

/-- Claim C5 counterexample: the f-string key `lang ++ "::" ++ text`
collides for the distinct argument pairs ("a", ":b") and ("a:", "b"):
both yield the key "a:::b". -/
theorem c5_counterexample :
    cacheKey "a" ":b" = cacheKey "a:" "b" ∧ ¬("a" = "a:" ∧ ":b" = "b") := by
  decide

theorem append_sep_inj {l₁ t₁ l₂ t₂ : List Char}
    (h₁ : ':' ∉ l₁) (h₂ : ':' ∉ l₂)
    (he : l₁ ++ ':' :: ':' :: t₁ = l₂ ++ ':' :: ':' :: t₂) :
    l₁ = l₂ ∧ t₁ = t₂ := by
  induction l₁ generalizing l₂ with
  | nil =>
    cases l₂ with
    | nil =>
      simp only [List.nil_append, List.cons.injEq, true_and] at he
      exact ⟨rfl, he⟩
    | cons d r₂ =>
      simp only [List.nil_append, List.cons_append, List.cons.injEq] at he
      simp only [List.mem_cons, not_or] at h₂
      exact absurd he.1 h₂.1
  | cons c r₁ ih =>
    cases l₂ with
    | nil =>
      simp only [List.cons_append, List.nil_append, List.cons.injEq] at he
      simp only [List.mem_cons, not_or] at h₁
      exact absurd he.1.symm h₁.1
    | cons d r₂ =>
      simp only [List.cons_append, List.cons.injEq] at he
      simp only [List.mem_cons, not_or] at h₁ h₂
      have hr := ih h₁.2 h₂.2 he.2
      exact ⟨by rw [he.1, hr.1], hr.2⟩

/-- Claim C5 (amended): the cache keys of (lang₁, text₁) and (lang₂, text₂)
coincide iff the concatenations coincide; whenever neither target language
contains the character ':', this holds exactly when the languages and
texts are equal (all nine languages offered by the UI contain no ':'). -/
theorem c5_amended (l₁ t₁ l₂ t₂ : String)
    (h₁ : ':' ∉ l₁.data) (h₂ : ':' ∉ l₂.data) :
    cacheKey l₁ t₁ = cacheKey l₂ t₂ ↔ (l₁ = l₂ ∧ t₁ = t₂) := by
  constructor
  · intro he
    have hd : l₁.data ++ ':' :: ':' :: t₁.data = l₂.data ++ ':' :: ':' :: t₂.data := by
      have h := congrArg String.data he
      simpa [cacheKey, String.data_append] using h
    obtain ⟨ha, hb⟩ := append_sep_inj h₁ h₂ hd
    exact ⟨String.ext ha, String.ext hb⟩
  · rintro ⟨rfl, rfl⟩
    rfl

/-- Claim C5 witness: for the UI language "Spanish" (no ':' in it), key
equality coincides with componentwise equality. -/
theorem c5_witness :
    cacheKey "Spanish" "gg" = cacheKey "Spanish" "gg ez"
      ↔ ("Spanish" = "Spanish" ∧ "gg" = "gg ez") :=
  c5_amended "Spanish" "gg" "Spanish" "gg ez" (by decide) (by decide)

/-! ## `FileAdapter.run` (src/main.py lines 34-51)

`run` seeks to the end of the pre-existing content, then repeatedly calls
`f.readline()` and pushes `line.strip()` for every non-empty raw line.
A session is modelled against a final snapshot of the file: the reads are
the newline-terminated chunks of the appended content (a final
unterminated chunk is read as-is at end of file), and every such chunk is
a non-empty raw string, so each one is emitted stripped.  Note the guard
`if line:` tests the raw line, not the stripped one. -/

/-- Split content into `readline()` results: chunks ending in a newline,
plus a final unterminated chunk if any (first argument accumulates the
current chunk, reversed). -/
def splitAfterNl : List Char → List Char → List (List Char)
  | acc, [] => if acc.isEmpty then [] else [acc.reverse]
  | acc, c :: rest =>
    if c = '\n' then (acc.reverse ++ ['\n']) :: splitAfterNl [] rest
    else splitAfterNl (c :: acc) rest

/-- What `FileAdapter.run` pushes for a file holding `pre` when the
adapter starts (`f.seek(0, os.SEEK_END)`) and `app` appended afterwards. -/
def fileEmits (pre app : String) : List String :=
  (splitAfterNl [] (((pre ++ app).data).drop pre.data.length)).map
    (fun c => pyStrip (String.mk c))

/-- Claim C6 failing input: the adapter never emits the pre-existing
content, but a blank appended line "\n" is a non-empty raw `readline()`
result, so `line.strip()` — the empty string — IS pushed, contradicting
the claim that every emitted item is non-empty.  (A normal appended line
"hi\n" is emitted trimmed, as claimed.) -/
theorem c6_blank_line_emitted :
    fileEmits "before\n" "\n" = [""] ∧ fileEmits "before\n" "hi \n" = ["hi"] := by
  decide

/-! ## `ClipboardAdapter.run` (src/main.py lines 76-93)

Each loop iteration reads the clipboard; if the text strips non-empty and
differs from the raw `self._last`, it records the raw text in `_last` and
pushes the stripped text. -/

/-- Items pushed by the clipboard loop for a sequence of polled reads,
starting from a given `self._last` (initially `None`). -/
def clipRun (last : Option String) : List String → List String
  | [] => []
  | t :: ts =>
    if pyStrip t ≠ "" ∧ some t ≠ last then pyStrip t :: clipRun (some t) ts
    else clipRun last ts

theorem clipRun_nil (last : Option String) : clipRun last [] = [] := rfl

theorem clipRun_cons (last : Option String) (t : String) (ts : List String) :
    clipRun last (t :: ts) =
      if pyStrip t ≠ "" ∧ some t ≠ last then pyStrip t :: clipRun (some t) ts
      else clipRun last ts := rfl

/-- Does a list contain two equal adjacent elements? -/
def hasConsecutiveDup : List String → Bool
  | a :: b :: r => a == b || hasConsecutiveDup (b :: r)
  | _ => false

/-- Claim C7 counterexample: the duplicate check compares the RAW
clipboard text with the raw last value, but the emission is stripped;
reads "a" then "a " (same after trimming) emit "a" twice in a row, so an
emitted item can equal the most recently emitted value. -/
theorem c7_counterexample :
    clipRun none ["a", "a "] = ["a", "a"]
  ∧ hasConsecutiveDup (clipRun none ["a", "a "]) = true := by decide

theorem clipRun_mem {reads : List String} :
    ∀ {last : Option String} {e : String},
      e ∈ clipRun last reads → pyStrip e = e ∧ e ≠ "" := by
  induction reads with
  | nil => intro last e he; simp [clipRun] at he
  | cons t ts ih =>
    intro last e he
    rw [clipRun] at he
    by_cases hc : pyStrip t ≠ "" ∧ some t ≠ last
    · rw [if_pos hc] at he
      rcases List.mem_cons.mp he with he1 | he2
      · exact ⟨he1 ▸ pyStrip_idem t, he1 ▸ hc.1⟩
      · exact ih he2
    · rw [if_neg hc] at he
      exact ih he

/-- Claim C7 (amended): every emitted item is trimmed and non-empty, and
the duplicate suppression compares raw clipboard values: the same raw
value twice consecutively emits at most once (the second read is wholly
absorbed), and a fresh non-blank value read twice yields exactly one
item — but emitted (trimmed) items may repeat consecutively when the raw
values differ only in whitespace. -/
theorem c7_amended :
    (∀ (last : Option String) (reads : List String) (e : String),
        e ∈ clipRun last reads → pyStrip e = e ∧ e ≠ "")
  ∧ (∀ (last : Option String) (v : String) (ts : List String),
        clipRun last (v :: v :: ts) = clipRun last (v :: ts))
  ∧ (∀ (last : Option String) (v : String), pyStrip v ≠ "" → some v ≠ last →
        clipRun last [v, v] = [pyStrip v]) := by
  refine ⟨fun last reads e he => clipRun_mem he, ?_, ?_⟩
  · intro last v ts
    by_cases hc : pyStrip v ≠ "" ∧ some v ≠ last
    · simp only [clipRun_cons]
      simp [hc]
    · simp only [clipRun_cons]
      simp [hc]
  · intro last v h1 h2
    simp only [clipRun_cons, clipRun_nil]
    simp [h1, h2]

/-- Claim C7 witness: a fresh clipboard value "b" set twice emits exactly
once, as "b". -/
theorem c7_witness : clipRun none ["b", "b"] = [pyStrip "b"] :=
  c7_amended.2.2 none "b" (by decide) (by decide)

/-! ## `OCRAdapter.run` (src/main.py lines 53-74)

Each frame: OCR text with `'\r'` replaced by `'\n'`, split on `'\n'`,
stripped, empties dropped; each resulting line is pushed iff it differs
from `self._last_text` (a single slot, updated after each push, initially
`""`, carried across frames). -/

/-- Python `text.split('\n')` (always at least one piece; the first
argument accumulates the current piece, reversed). -/
def splitNl : List Char → List Char → List (List Char)
  | acc, [] => [acc.reverse]
  | acc, c :: rest =>
    if c = '\n' then acc.reverse :: splitNl [] rest
    else splitNl (c :: acc) rest

/-- Model of `[l.strip() for l in text.replace('\r','\n').split('\n') if l.strip()]`. -/
def ocrLines (t : String) : List String :=
  ((splitNl [] (t.data.map (fun c => if c = '\r' then '\n' else c))).map
      (fun l => pyStrip (String.mk l))).filter (fun s => s ≠ "")

/-- One frame: push each line differing from the last-pushed slot.
Returns (new slot value, pushed lines). -/
def ocrFrame (last : String) : List String → String × List String
  | [] => (last, [])
  | l :: ls =>
    if l ≠ last then ((ocrFrame l ls).1, l :: (ocrFrame l ls).2)
    else ocrFrame last ls

/-- A run of OCR frames (raw OCR text per capture), threading the
`_last_text` slot across frames. -/
def ocrRun : String → List String → String × List String
  | last, [] => (last, [])
  | last, t :: ts =>
    ((ocrRun (ocrFrame last (ocrLines t)).1 ts).1,
     (ocrFrame last (ocrLines t)).2 ++ (ocrRun (ocrFrame last (ocrLines t)).1 ts).2)

theorem ocrFrame_nil (last : String) : ocrFrame last [] = (last, []) := rfl

theorem ocrFrame_cons (last l : String) (ls : List String) :
    ocrFrame last (l :: ls) =
      if l ≠ last then ((ocrFrame l ls).1, l :: (ocrFrame l ls).2)
      else ocrFrame last ls := rfl

theorem ocrRun_nil (last : String) : ocrRun last [] = (last, []) := rfl

theorem ocrRun_cons (last t : String) (ts : List String) :
    ocrRun last (t :: ts) =
      ((ocrRun (ocrFrame last (ocrLines t)).1 ts).1,
       (ocrFrame last (ocrLines t)).2
         ++ (ocrRun (ocrFrame last (ocrLines t)).1 ts).2) := rfl

/-- Claim C8 counterexample: the suppression slot holds only the single
most recently pushed LINE, so two consecutive identical multi-line OCR
reads ("a\nb" twice) emit all their lines again — four emissions, not at
most one. -/
theorem c8_counterexample :
    (ocrRun "" ["a\nb", "a\nb"]).2 = ["a", "b", "a", "b"]
  ∧ ¬((ocrRun "" ["a\nb", "a\nb"]).2.length ≤ 1) := by decide

/-- Claim C8 (amended): when each OCR read yields a single line, two
consecutive identical reads emit at most once; and a line recurring after
a different line intervenes IS emitted again.  For multi-line reads the
suppression compares each line only against the single most recently
emitted line, so an identical repeated frame re-emits its lines. -/
theorem c8_amended :
    (∀ (last t l : String), ocrLines t = [l] →
        (ocrRun last [t, t]).2.length ≤ 1)
  ∧ (∀ (last t₁ t₂ l₁ l₂ : String), ocrLines t₁ = [l₁] → ocrLines t₂ = [l₂] →
        l₁ ≠ l₂ → l₁ ≠ last → (ocrRun last [t₁, t₂, t₁]).2 = [l₁, l₂, l₁]) := by
  constructor
  · intro last t l h
    by_cases hl : l = last
    · simp [ocrRun_cons, ocrRun_nil, h, ocrFrame_cons, ocrFrame_nil, hl]
    · simp [ocrRun_cons, ocrRun_nil, h, ocrFrame_cons, ocrFrame_nil, hl]
  · intro last t₁ t₂ l₁ l₂ h1 h2 hne hlast
    simp [ocrRun_cons, ocrRun_nil, h1, h2, ocrFrame_cons, ocrFrame_nil,
      hlast, hne, Ne.symm hne]

/-- Claim C8 witness: single-line frames "x", "y", "x" from a fresh slot
emit "x", "y", "x" — "x" is re-emitted after "y" intervenes. -/
theorem c8_witness : (ocrRun "" ["x", "y", "x"]).2 = ["x", "y", "x"] :=
  c8_amended.2 "" "x" "y" "x" "y" (by decide) (by decide) (by decide) (by decide)

/-! ## `TranslatorApp._worker` / `TranslatorApp._process_queues`
(src/main.py lines 241-263)

Items on the output queue are either bare strings (adapter error signals,
checked with `startswith('__ERROR__')`) or `(original, translated)`
tuples.  The worker's translation result is whatever string
`Translator.translate` returns — on failure that is the
`"__ERROR__ Translator: ..."` string, and it is placed inside the tuple. -/

/-- An item on `out_queue`: a bare string or an `(orig, translated)` tuple. -/
inductive OutItem where
  | err : String → OutItem
  | pair : String → String → OutItem
  deriving DecidableEq

/-- Python `str.startswith`. -/
def pyStartsWith (s pre : String) : Bool := pre.data.isPrefixOf s.data

/-- One `_worker` iteration on a popped item, with the translator's
result abstracted as `tr` (`translate` never raises; on failure it
RETURNS the error string). -/
def workerStep (tr : String → String) (item : String) : OutItem :=
  if pyStartsWith item "__ERROR__" then OutItem.err item
  else OutItem.pair item (tr item)

/-- Model of `_process_queues` rendering of one drained item
(`overlay` = the "Overlay mode (compact)" checkbox). -/
def renderLine (overlay : Bool) : OutItem → String
  | OutItem.err s => "[Error] " ++ s
  | OutItem.pair orig tr =>
    if overlay then tr
    else "[ORIG] " ++ orig ++ "\n[TRANSLATION] " ++ tr ++ "\n"

/-- Claim C1 counterexample: for the Line "hi" whose translation fails
(the translator returns "__ERROR__ Translator: boom"), the worker pushes
the TUPLE ("hi", error-string) — not the bare error signal — and the UI
renders it through the normal pair branch, not as a "[Error] " line. -/
theorem c1_counterexample :
    workerStep (fun _ => "__ERROR__ Translator: boom") "hi"
        ≠ OutItem.err "__ERROR__ Translator: boom"
  ∧ workerStep (fun _ => "__ERROR__ Translator: boom") "hi"
        = OutItem.pair "hi" "__ERROR__ Translator: boom"
  ∧ renderLine false (workerStep (fun _ => "__ERROR__ Translator: boom") "hi")
        = "[ORIG] hi\n[TRANSLATION] __ERROR__ Translator: boom\n"
  ∧ renderLine true (workerStep (fun _ => "__ERROR__ Translator: boom") "hi")
        = "__ERROR__ Translator: boom" := by decide

/-- Claim C1 (amended): for every Line item (one not starting with
"__ERROR__"), the worker pushes the pair (original, translate-result)
whether or not the translation failed — failures appear as the error text
in the translation slot of a normally rendered pair; only bare adapter
error strings take the distinct "[Error] " rendering, in both modes. -/
theorem c1_amended (tr : String → String) (item s : String)
    (hline : pyStartsWith item "__ERROR__" = false)
    (herr : pyStartsWith s "__ERROR__" = true) :
    workerStep tr item = OutItem.pair item (tr item)
  ∧ renderLine false (workerStep tr item)
      = "[ORIG] " ++ item ++ "\n[TRANSLATION] " ++ tr item ++ "\n"
  ∧ renderLine true (workerStep tr item) = tr item
  ∧ workerStep tr s = OutItem.err s
  ∧ (∀ overlay, renderLine overlay (OutItem.err s) = "[Error] " ++ s) := by
  have h1 : workerStep tr item = OutItem.pair item (tr item) := by
    rw [workerStep, if_neg (by rw [hline]; exact Bool.false_ne_true)]
  have h2 : workerStep tr s = OutItem.err s := by
    rw [workerStep, if_pos herr]
  exact ⟨h1, by rw [h1]; rfl, by rw [h1]; rfl, h2, fun overlay => rfl⟩

/-- Claim C1 witness: instantiated for the Line "gg" with a failing
translator and the adapter signal "__ERROR__ FileAdapter: gone". -/
theorem c1_witness :
    workerStep (fun _ => "__ERROR__ Translator: x") "gg"
        = OutItem.pair "gg" "__ERROR__ Translator: x"
  ∧ renderLine false (workerStep (fun _ => "__ERROR__ Translator: x") "gg")
      = "[ORIG] " ++ "gg" ++ "\n[TRANSLATION] " ++ "__ERROR__ Translator: x" ++ "\n"
  ∧ renderLine true (workerStep (fun _ => "__ERROR__ Translator: x") "gg")
      = "__ERROR__ Translator: x"
  ∧ workerStep (fun _ => "__ERROR__ Translator: x") "__ERROR__ FileAdapter: gone"
      = OutItem.err "__ERROR__ FileAdapter: gone"
  ∧ (∀ overlay, renderLine overlay (OutItem.err "__ERROR__ FileAdapter: gone")
      = "[Error] " ++ "__ERROR__ FileAdapter: gone") :=
  c1_amended (fun _ => "__ERROR__ Translator: x") "gg" "__ERROR__ FileAdapter: gone"
    (by decide) (by decide)

/-! ## `TranslatorApp.start` / `TranslatorApp.stop`
(src/main.py lines 188-240)

The observable session state: the `self.running` flag, the two buttons'
enabled flags, whether an adapter object exists and its `_stop` flag, the
number of background threads spawned so far, and the log. Filesystem and
environment facts that the validation consults (`os.path.exists`,
`os.environ`) are oracle fields of the configuration. -/

/-- The configuration read by `start`: the API-key field text, the
`OPENAI_API_KEY` environment value ("" when unset), the adapter combo
selection, the source field text, and the `os.path.exists(source)` oracle. -/
structure Config where
  apiKeyInput : String
  envKey : String
  adapterName : String
  source : String
  fileExists : Bool
  deriving DecidableEq

/-- Observable state of the `TranslatorApp` session. -/
structure AppState where
  running : Bool
  startEnabled : Bool
  stopEnabled : Bool
  hasAdapter : Bool
  adapterStopFlag : Bool
  threads : Nat
  log : List String
  deriving DecidableEq

/-- Validity of `parts = [int(p.strip()) for p in source.split(',')]` with
`len(parts) == 4`, modelling the `try/except` around the bbox parse
(Lean's `String.toInt?` stands in for Python's `int`). -/
def bboxParseOk (source : String) : Bool :=
  ((source.splitOn ",").map (fun p => (pyStrip p).toInt?)).all (fun o => o ≠ none)
    && (source.splitOn ",").length == 4

/-- The successful tail of `start`: set `running`, flip the buttons,
construct the adapter, spawn the adapter and worker threads, log. -/
def startedState (cfg : Config) (s : AppState) : AppState :=
  { running := true
    startEnabled := false
    stopEnabled := true
    hasAdapter := true
    adapterStopFlag := false
    threads := s.threads + 2
    log := s.log ++ ["[System] Started adapter: " ++ cfg.adapterName] }

/-- Model of `TranslatorApp.start`: no-op while running; validate the credential
and the adapter-specific source descriptor; on any validation failure
stay unchanged (the warning dialog is not part of the session state);
otherwise transition to the started state. -/
def appStart (cfg : Config) (s : AppState) : AppState :=
  if s.running then s
  else if (if pyStrip cfg.apiKeyInput ≠ "" then pyStrip cfg.apiKeyInput
           else cfg.envKey) = "" then s
  else if cfg.adapterName = "file" then
    if pyStrip cfg.source = "" ∨ cfg.fileExists = false then s
    else startedState cfg s
  else if cfg.adapterName = "ocr" then
    if pyStrip cfg.source = "" then s
    else if bboxParseOk (pyStrip cfg.source) then startedState cfg s
    else s
  else if cfg.adapterName = "clipboard" then startedState cfg s
  else s

/-- Model of `TranslatorApp.stop`: no-op unless running; otherwise clear `running`,
flip the buttons, set the adapter's `_stop` flag, log. -/
def appStop (s : AppState) : AppState :=
  if s.running = false then s
  else { s with
    running := false
    startEnabled := true
    stopEnabled := false
    adapterStopFlag := (if s.hasAdapter then true else s.adapterStopFlag)
    log := s.log ++ ["[System] Stopped."] }

theorem appStop_not_running {s : AppState} (h : s.running = false) :
    appStop s = s := by
  simp [appStop, h]

/-- Claim C9: `start` while running is a no-op; `stop` while not running
is a no-op; a successful `stop` leaves the session idle; and stopping
twice equals stopping once (no duplicate effect). -/
theorem c9_lifecycle (cfg : Config) (s : AppState) :
    (s.running = true → appStart cfg s = s)
  ∧ (s.running = false → appStop s = s)
  ∧ (s.running = true → (appStop s).running = false)
  ∧ appStop (appStop s) = appStop s := by
  refine ⟨?_, ?_, ?_, ?_⟩
  · intro h
    simp [appStart, h]
  · intro h
    exact appStop_not_running h
  · intro h
    simp [appStop, h]
  · by_cases h : s.running
    · have h1 : (appStop s).running = false := by simp [appStop, h]
      exact appStop_not_running h1
    · have h0 : s.running = false := by simpa using h
      rw [appStop_not_running h0, appStop_not_running h0]

/-- Claim C9 witness: a running session with clipboard configuration —
`start` changes nothing, and a double `stop` equals a single `stop`. -/
theorem c9_witness :
    appStart ⟨"k", "", "clipboard", "", true⟩
        ⟨true, false, true, true, false, 2, []⟩
      = ⟨true, false, true, true, false, 2, []⟩
  ∧ appStop (appStop ⟨true, false, true, true, false, 2, []⟩)
      = appStop ⟨true, false, true, true, false, 2, []⟩ :=
  ⟨(c9_lifecycle ⟨"k", "", "clipboard", "", true⟩
      ⟨true, false, true, true, false, 2, []⟩).1 rfl,
   (c9_lifecycle ⟨"k", "", "clipboard", "", true⟩
      ⟨true, false, true, true, false, 2, []⟩).2.2.2⟩
